import Mathlib

/-
Verification of the PENMAN codec (penman/codec.py): a shallow embedding of
the tree parser, the alignment-marker decoder, the comment/metadata parser,
the tree formatter and the triple parser/formatter, together with theorems
settling the specification claims.

The repository ships only codec.py; the lexer (penman/lexer.py), the tree
helpers (penman/tree.py) and the surface markers (penman/surface.py) are
external collaborators per the spec and are modelled from the spec where
the codec consumes them.  Token values are modelled as their raw text (the
spec declares token-level decoding a non-goal).
-/

namespace Penman

/-- Token categories handed to the parser by the (external) lexer.
Modelled from the spec: symbol, string, number (integer/float), role,
punctuation, alignment-marker, comment.  `EOF` is a sentinel returned by
`peekT` on an exhausted stream; the lexer never produces it. -/
inductive TokType where
  | COMMENT | STRING | ALIGNMENT | ROLE | SYMBOL | INTEGER | FLOAT
  | LPAREN | RPAREN | SLASH | COMMA | CARET | EOF
deriving DecidableEq, Repr

/-- Name of a token type, used in `Expected: ...` error messages. -/
def typeName : TokType → String
  | .COMMENT => "COMMENT"
  | .STRING => "STRING"
  | .ALIGNMENT => "ALIGNMENT"
  | .ROLE => "ROLE"
  | .SYMBOL => "SYMBOL"
  | .INTEGER => "INTEGER"
  | .FLOAT => "FLOAT"
  | .LPAREN => "LPAREN"
  | .RPAREN => "RPAREN"
  | .SLASH => "SLASH"
  | .COMMA => "COMMA"
  | .CARET => "CARET"
  | .EOF => "EOF"

/-- A lexed token.  Modelled from the spec: a token carries its type and its
raw text; its decoded `value` is modelled as the raw text itself (token-level
decoding is a spec non-goal). -/
structure Token where
  type : TokType
  text : String
deriving DecidableEq, Repr

/-- Token.value in the source reads the token's decoded literal; modelled as
the raw text. -/
def Token.value (t : Token) : String := t.text

/-- The syntax-error result: the message and the offending token (if any). -/
structure Err where
  message : String
  tok : Option Token
deriving DecidableEq, Repr

/-- Sentinel token returned by `peekT` on an exhausted stream. -/
def eofToken : Token := ⟨.EOF, ""⟩

abbrev Toks := List Token

/-- Modelled from the spec: the TokenIterator's one-token lookahead `peek`. -/
def peekT : Toks → Token
  | [] => eofToken
  | t :: _ => t

/-- Message of a failed `expect`. -/
def expectMsg (tys : List TokType) : String :=
  "Expected: " ++ String.intercalate ", " (tys.map typeName)

/-- Modelled from the spec: the TokenIterator's `expect`, which consumes the
next token and fails with a positioned syntax error when its type is not
among the given types. -/
def expectS (ts : Toks) (tys : List TokType) :
    Except Err (Token × { r : Toks // r.length < ts.length }) :=
  match ts with
  | [] => .error ⟨expectMsg tys, none⟩
  | t :: r =>
    if t.type ∈ tys then .ok (t, ⟨r, by simp only [List.length_cons]; omega⟩)
    else .error ⟨expectMsg tys, some t⟩

/-! ### Character classes and the lexer (modelled from the spec) -/

def isWS (c : Char) : Bool := c = ' ' || c = '\n' || c = '\t' || c = '\r'

/-- Characters that may occur in a SYMBOL / INTEGER / FLOAT token or in the
body of a ROLE token. -/
def isSymChar (c : Char) : Bool :=
  !(isWS c) && !(['(', ')', '/', ':', '~', '"', '#', ',', '^'].contains c)

/-- An integer-shaped run: optional sign then one or more digits. -/
def intShape (cs : List Char) : Bool :=
  match cs with
  | [] => false
  | c :: rest =>
    let ds := if c = '-' || c = '+' then rest else c :: rest
    !ds.isEmpty && ds.all Char.isDigit

/-- A float-shaped run: optional sign then digits with exactly one dot and
at least one digit. -/
def floatShape (cs : List Char) : Bool :=
  match cs with
  | [] => false
  | c :: rest =>
    let ds := if c = '-' || c = '+' then rest else c :: rest
    !ds.isEmpty && ds.all (fun x => x.isDigit || x = '.')
      && ds.count '.' = 1 && ds.any Char.isDigit

/-- Classification of a run of symbol characters. -/
def classifyTok (cs : List Char) : TokType :=
  if intShape cs then .INTEGER else if floatShape cs then .FLOAT else .SYMBOL

/-- Scan a string-token body after the opening quote: backslash escapes any
character, an unescaped quote closes the string.  Returns the body (without
the closing quote) and the remaining input. -/
def strScan : (cs : List Char) → Option (List Char × { r : List Char // r.length < cs.length })
  | [] => none
  | '"' :: r => some ([], ⟨r, by simp⟩)
  | '\\' :: c :: r =>
    match strScan r with
    | none => none
    | some (b, ⟨rem, h⟩) => some ('\\' :: c :: b, ⟨rem, by simp; omega⟩)
  | c :: r =>
    match strScan r with
    | none => none
    | some (b, ⟨rem, h⟩) => some (c :: b, ⟨rem, by simp; omega⟩)

/-- Greedy scan of `\d*(?:,\d+)*` continuing a digit run: consume digits,
and a comma only when a digit follows it; structural, with the consumed and
remaining parts. -/
def digTail : (cs : List Char) → List Char × { r : List Char // r.length ≤ cs.length }
  | [] => ([], ⟨[], le_refl _⟩)
  | c :: r =>
    if c.isDigit then
      match digTail r with
      | (t, ⟨rem, h⟩) => (c :: t, ⟨rem, by simp only [List.length_cons]; omega⟩)
    else if c = ',' then
      match r with
      | d :: r2 =>
        if d.isDigit then
          match digTail r2 with
          | (t, ⟨rem, h⟩) =>
            (c :: d :: t, ⟨rem, by simp only [List.length_cons]; omega⟩)
        else ([], ⟨c :: d :: r2, le_refl _⟩)
      | [] => ([], ⟨[c], le_refl _⟩)
    else ([], ⟨c :: r, le_refl _⟩)

/-- The `\d+(?:,\d+)*` part of an alignment token: a digit run then comma
groups; fails when no leading digit is present. -/
def digitsCommas (cs : List Char) :
    Option (List Char × { r : List Char // r.length ≤ cs.length }) :=
  match cs with
  | c :: r => if c.isDigit then some (digTail (c :: r)) else none
  | [] => none

/-- Scan the text of an alignment token after the `~`: an optional one-letter
prefix (possibly followed by a dot) then one or more comma-separated digit
runs.  Mirrors the lexer pattern for ALIGNMENT tokens. -/
def alignScan (cs : List Char) :
    Option (List Char × { r : List Char // r.length ≤ cs.length }) :=
  match cs with
  | c :: c2 :: r =>
    if c.isAlpha then
      if c2 = '.' then
        match digitsCommas r with
        | none => none
        | some (t, ⟨rem, h⟩) => some (c :: c2 :: t, ⟨rem, by simp; omega⟩)
      else if c2.isDigit then
        match digitsCommas (c2 :: r) with
        | none => none
        | some (t, ⟨rem, h⟩) => some (c :: t, ⟨rem, by simp at h ⊢; omega⟩)
      else none
    else
      match digitsCommas (c :: c2 :: r) with
      | none => none
      | some (t, ⟨rem, h⟩) => some (t, ⟨rem, h⟩)
  | cs =>
    match digitsCommas cs with
    | none => none
    | some (t, ⟨rem, h⟩) => some (t, ⟨rem, h⟩)

/-- `dropWhile` packaged with the fact that it does not lengthen the list. -/
def dropWhileS (p : Char → Bool) (l : List Char) :
    { r : List Char // r.length ≤ l.length } :=
  ⟨l.dropWhile p, (List.dropWhile_sublist _).length_le⟩

/-- Modelled from the spec: the lexer for the graph notation (penman/lexer.py
is not under src/).  Produces typed tokens carrying raw text: comments run to
the end of the line, strings are double-quoted with backslash escapes,
alignment markers follow the `~` pattern, roles start with `:`, parentheses
and slash are punctuation, and other runs of symbol characters are classified
as INTEGER, FLOAT or SYMBOL. -/
def lexPen (cs : List Char) : Except Err (List Token) :=
  match cs with
  | [] => .ok []
  | c :: rest =>
    if isWS c then lexPen rest
    else if c = '#' then
      (lexPen (dropWhileS (· ≠ '\n') rest).1).map
        (fun ts => ⟨.COMMENT, String.mk ('#' :: rest.takeWhile (· ≠ '\n'))⟩ :: ts)
    else if c = '"' then
      match strScan rest with
      | none => .error ⟨"Unexpected end of input", none⟩
      | some (body, ⟨rem, _⟩) =>
        (lexPen rem).map
          (fun ts => ⟨.STRING, String.mk ('"' :: (body ++ ['"']))⟩ :: ts)
    else if c = '~' then
      match alignScan rest with
      | none => .error ⟨"Unexpected character: ~", none⟩
      | some (txt, ⟨rem, _⟩) =>
        (lexPen rem).map (fun ts => ⟨.ALIGNMENT, String.mk ('~' :: txt)⟩ :: ts)
    else if c = ':' then
      (lexPen (dropWhileS isSymChar rest).1).map
        (fun ts => ⟨.ROLE, String.mk (':' :: rest.takeWhile isSymChar)⟩ :: ts)
    else if c = '(' then (lexPen rest).map (⟨.LPAREN, "("⟩ :: ·)
    else if c = ')' then (lexPen rest).map (⟨.RPAREN, ")"⟩ :: ·)
    else if c = '/' then (lexPen rest).map (⟨.SLASH, "/"⟩ :: ·)
    else if isSymChar c then
      (lexPen (dropWhileS isSymChar rest).1).map
        (fun ts => ⟨classifyTok (c :: rest.takeWhile isSymChar),
                    String.mk (c :: rest.takeWhile isSymChar)⟩ :: ts)
    else .error ⟨"Unexpected character", some ⟨.EOF, String.mk [c]⟩⟩
termination_by cs.length
decreasing_by
  all_goals simp only [List.length_cons]
  all_goals first
    | omega
    | (exact Nat.lt_succ_of_le (dropWhileS _ _).2)

/-! ### Surface alignment markers and the tree data model -/

/-- An alignment marker.  Modelled from the spec where penman/surface.py is
not under src/: a marker carries an ordered index sequence, an optional
prefix (stored exactly as captured by the decoder's regular expression,
including a trailing dot when present), and its kind; `mode = 1` is a role
epigraph (RoleAlignment) and `mode = 2` a target epigraph (Alignment). -/
structure Marker where
  indices : List Nat
  pfx : Option String
  mode : Nat
deriving DecidableEq, Repr

/-- Rendered text of a marker, modelled from the spec: the raw reconstructed
form, a tilde, the stored prefix text, and the comma-joined indices. -/
def markerStr (m : Marker) : String :=
  "~" ++ (m.pfx.getD "") ++ String.intercalate "," (m.indices.map toString)

/-- Numeric value of a digit run. -/
def natOfDigits (cs : List Char) : Nat :=
  cs.foldl (fun n c => n * 10 + (c.toNat - '0'.toNat)) 0

/-- The index sequence denoted by the matched `\d+(?:,\d+)*` text. -/
def indsOf (cs : List Char) : List Nat :=
  (cs.splitOn ',').map natOfDigits

/-- The anchored match of `~(?P<prefix>[a-zA-Z]\.?)?(?P<indices>\d+(?:,\d+)*)`
against the characters after the tilde, with the regex engine's backtracking
over the optional greedy prefix group.  Returns the captured prefix and the
decoded indices, or `none` when the pattern does not match. -/
def alignMatch (cs : List Char) : Option (Option String × List Nat) :=
  match cs with
  | c :: c2 :: r =>
    if c.isAlpha then
      if c2 = '.' then
        match digitsCommas r with
        | none => none
        | some (t, _) => some (some (String.mk [c, '.']), indsOf t)
      else
        match digitsCommas (c2 :: r) with
        | none => none
        | some (t, _) => some (some (String.mk [c]), indsOf t)
    else
      match digitsCommas (c :: c2 :: r) with
      | none => none
      | some (t, _) => some (none, indsOf t)
  | cs =>
    match digitsCommas cs with
    | none => none
    | some (t, _) => some (none, indsOf t)

/-- PENMANCodec._parse_alignment's decoding of an alignment token's text of
the given kind (`mode`): on a regex match the captured prefix and indices,
otherwise the empty marker `(indices = (), prefix = None)`. -/
def decodeAlignment (mode : Nat) (text : String) : Marker :=
  match text.toList with
  | '~' :: cs =>
    match alignMatch cs with
    | some (p, inds) => ⟨inds, p, mode⟩
    | none => ⟨[], none, mode⟩
  | _ => ⟨[], none, mode⟩

mutual
/-- A tree node `(id, edges)`: the optional identifier and the ordered edge
list (the node label, when present, is the first edge with role `/`). -/
inductive PNode where
  | mk (id : Option String) (edges : PEdges)

/-- The ordered edge list of a node. -/
inductive PEdges where
  | nil
  | cons (e : PEdge) (rest : PEdges)

/-- An edge `(role, target, epidata)`. -/
inductive PEdge where
  | mk (role : String) (target : PTarget) (epis : List Marker)

/-- An edge target: elided (dangling edge), an atomic constant, or a node. -/
inductive PTarget where
  | none
  | atom (s : String)
  | node (n : PNode)
end

def PNode.id : PNode → Option String
  | .mk i _ => i

def PNode.edges : PNode → PEdges
  | .mk _ es => es

def PEdge.role : PEdge → String
  | .mk r _ _ => r

def PEdge.target : PEdge → PTarget
  | .mk _ t _ => t

def PEdge.epis : PEdge → List Marker
  | .mk _ _ ep => ep

/-- Edge list as an ordinary list. -/
def PEdges.toList : PEdges → List PEdge
  | .nil => []
  | .cons e r => e :: PEdges.toList r

/-- List of edges as a `PEdges`. -/
def PEdges.ofList : List PEdge → PEdges
  | [] => .nil
  | e :: r => .cons e (PEdges.ofList r)

/-- A parsed tree: the root node and the metadata mapping (an
insertion-ordered association list standing for the Python dict). -/
structure Tree where
  node : PNode
  metadata : List (String × String)

/-! ### Comment metadata (`PENMANCodec._parse_comments`) -/

/-- Scan (the reversal of) a character list for the first adjacent `::`;
returns the part before the separator (in original order, reversed back) and
the accumulated part after it, with the length bookkeeping needed for
termination.  This realizes Python's `str.rpartition('::')` when run on the
reversed text. -/
def rpartAux : (r : List Char) → (acc : List Char) →
    Option { p : List Char × List Char //
             p.1.length + 2 + p.2.length = r.length + acc.length }
  | ':' :: ':' :: rest, acc =>
    some ⟨(rest.reverse, acc), by simp only [List.length_cons, List.length_reverse]⟩
  | c :: rest, acc =>
    match rpartAux rest (c :: acc) with
    | none => none
    | some ⟨p, h⟩ =>
      some ⟨p, by simp only [List.length_cons] at h ⊢; omega⟩
  | [], _ => none

/-- Python `comment.rpartition('::')` restricted to the found case: the text
before the last `::` and the text after it, or `none` when `::` does not
occur. -/
def rpartColons (cs : List Char) :
    Option { p : List Char × List Char // p.1.length + 2 + p.2.length = cs.length } :=
  match rpartAux cs.reverse [] with
  | none => none
  | some ⟨p, h⟩ =>
    some ⟨p, by simpa using h⟩

/-- Python `meta.partition(' ')` first component: the metadata key. -/
def keyOf (cs : List Char) : List Char := cs.takeWhile (· ≠ ' ')

/-- Python `meta.partition(' ')` third component: the metadata value. -/
def valOf (cs : List Char) : List Char := (cs.dropWhile (· ≠ ' ')).drop 1

/-- Python dict assignment `metadata[key] = value`: an existing key keeps its
position and gets the new value; a new key is appended. -/
def mdInsert (md : List (String × String)) (k v : String) : List (String × String) :=
  if md.any (fun p => p.1 = k) then md.map (fun p => if p.1 = k then (k, v) else p)
  else md ++ [(k, v)]

/-- The inner loop of `_parse_comments`: repeatedly split the comment text on
the last `::`, record the key/value pair found after it, and continue with
the text before it. -/
def commentMeta (cs : List Char) (md : List (String × String)) :
    List (String × String) :=
  match rpartColons cs with
  | none => md
  | some ⟨(before, after), h⟩ =>
    commentMeta before (mdInsert md (String.mk (keyOf after)) (String.mk (valOf after)))
termination_by cs.length
decreasing_by
  simp only at h
  omega

/-- `PENMANCodec._parse_comments`: consume leading COMMENT tokens, folding
each comment's key/value pairs into the metadata. -/
def parseComments (ts : Toks) (md : List (String × String)) :
    List (String × String) × Toks :=
  match ts with
  | t :: r =>
    if t.type = .COMMENT then parseComments r (commentMeta t.text.toList md)
    else (md, t :: r)
  | [] => (md, [])

/-! ### The recursive-descent parser (`PENMANCodec._parse_node` etc.) -/

/-- The valid non-node targets of edges (`PENMANCodec.ATOMS`). -/
def ATOMS : List TokType := [.SYMBOL, .STRING, .INTEGER, .FLOAT]

/-- An optional alignment marker after the token just consumed: when the next
token is an ALIGNMENT, consume it and decode it with the given kind. -/
def parseOptAlign (ts : Toks) (mode : Nat) :
    List Marker × { r : Toks // r.length ≤ ts.length } :=
  match ts with
  | t :: r =>
    if t.type = .ALIGNMENT then ([decodeAlignment mode t.text], ⟨r, by simp⟩)
    else ([], ⟨t :: r, le_refl _⟩)
  | [] => ([], ⟨[], le_refl _⟩)

/-- `PENMANCodec._parse_node_label`: consume the slash; for robustness the
label is only read when the next token is an atom, and a label alignment only
when one follows the label. -/
def parseNodeLabel (ts : Toks) :
    Except Err (PEdge × { r : Toks // r.length < ts.length }) :=
  match expectS ts [.SLASH] with
  | .error e => .error e
  | .ok (_, ⟨[], h1⟩) => .ok (⟨"/", .none, []⟩, ⟨[], h1⟩)
  | .ok (_, ⟨a :: ts2, h1⟩) =>
    if a.type ∈ ATOMS then
      match parseOptAlign ts2 2 with
      | (epis, ⟨ts3, h3⟩) =>
        .ok (⟨"/", .atom a.value, epis⟩,
             ⟨ts3, by simp only [List.length_cons] at h1; omega⟩)
    else .ok (⟨"/", .none, []⟩, ⟨a :: ts2, h1⟩)

mutual
/-- `PENMANCodec._parse_node`: `'(' ID ('/' Label)? Edge* ')'`, with the
robustness rule that `()` is the empty node. -/
def parseNode (ts : Toks) :
    Except Err (PNode × { r : Toks // r.length < ts.length }) :=
  match expectS ts [.LPAREN] with
  | .error e => .error e
  | .ok (_, ⟨ts1, h1⟩) =>
    if (peekT ts1).type ≠ .RPAREN then
      match expectS ts1 [.SYMBOL] with
      | .error e => .error e
      | .ok (idt, ⟨ts2, h2⟩) =>
        match
          (if (peekT ts2).type = .SLASH then
            match parseNodeLabel ts2 with
            | .error e => .error e
            | .ok (e, ⟨ts3, h3⟩) =>
              .ok ((fun es => PEdges.cons e es), ⟨ts3, le_of_lt h3⟩)
          else
            .ok (id, ⟨ts2, le_refl _⟩) :
            Except Err ((PEdges → PEdges) × { r : Toks // r.length ≤ ts2.length })) with
        | .error e => .error e
        | .ok (withLabel, ⟨ts3, h3⟩) =>
          match parseEdges ts3 with
          | .error e => .error e
          | .ok (es, ⟨ts4, h4⟩) =>
            match expectS ts4 [.RPAREN] with
            | .error e => .error e
            | .ok (_, ⟨ts5, h5⟩) =>
              .ok (⟨some idt.value, withLabel es⟩, ⟨ts5, by omega⟩)
    else
      match expectS ts1 [.RPAREN] with
      | .error e => .error e
      | .ok (_, ⟨ts2, h2⟩) =>
        .ok (⟨none, .nil⟩, ⟨ts2, by omega⟩)
termination_by (ts.length, 0)
decreasing_by
  simp only [Prod.lex_iff]
  omega

/-- The `while tokens.peek().type != 'RPAREN'` loop of `_parse_node`. -/
def parseEdges (ts : Toks) :
    Except Err (PEdges × { r : Toks // r.length ≤ ts.length }) :=
  if (peekT ts).type ≠ .RPAREN then
    match parseEdge ts with
    | .error e => .error e
    | .ok (e, ⟨ts1, h1⟩) =>
      match parseEdges ts1 with
      | .error e => .error e
      | .ok (es, ⟨ts2, h2⟩) =>
        .ok (.cons e es, ⟨ts2, by omega⟩)
  else .ok (.nil, ⟨ts, le_refl _⟩)
termination_by (ts.length, 2)
decreasing_by
  all_goals simp only [Prod.lex_iff]
  · exact Or.inr ⟨trivial, by omega⟩
  · exact Or.inl (by omega)

/-- `PENMANCodec._parse_edge`: `Role Alignment? (Atom Alignment? | Node)?`
with the robustness rule that a following role or closing parenthesis leaves
the target elided, and any other token is the fatal syntax error naming the
expected categories. -/
def parseEdge (ts : Toks) :
    Except Err (PEdge × { r : Toks // r.length < ts.length }) :=
  match expectS ts [.ROLE] with
  | .error e => .error e
  | .ok (rt, ⟨ts1, h1⟩) =>
    match parseOptAlign ts1 1 with
    | (epis1, ⟨[], h2⟩) => .error ⟨"Expected: ATOM, LPAREN", some eofToken⟩
    | (epis1, ⟨a :: ts3, h2⟩) =>
      if a.type ∈ ATOMS then
        match parseOptAlign ts3 2 with
        | (epis2, ⟨ts4, h4⟩) =>
          .ok (⟨rt.text, .atom a.value, epis1 ++ epis2⟩,
               ⟨ts4, by simp only [List.length_cons] at h2; omega⟩)
      else if a.type = .LPAREN then
        match parseNode (a :: ts3) with
        | .error e => .error e
        | .ok (n, ⟨ts5, h5⟩) =>
          .ok (⟨rt.text, .node n, epis1⟩, ⟨ts5, by omega⟩)
      else if a.type = .ROLE ∨ a.type = .RPAREN then
        .ok (⟨rt.text, .none, epis1⟩, ⟨a :: ts3, by omega⟩)
      else .error ⟨"Expected: ATOM, LPAREN", some a⟩
termination_by (ts.length, 1)
decreasing_by
  simp only [Prod.lex_iff]
  omega
end

/-- `PENMANCodec.parse`: lex the string, read leading comments into metadata,
then parse the node. -/
def parse (s : String) : Except Err Tree :=
  match lexPen s.toList with
  | .error e => .error e
  | .ok ts =>
    match parseComments ts [] with
    | (md, ts1) =>
      match parseNode ts1 with
      | .error e => .error e
      | .ok (n, _) => .ok ⟨n, md⟩

/-! ### The tree formatter (`PENMANCodec.format` / `_format_node` /
`_format_edge`) -/

/-- `penman.tree.is_atomic`, modelled from the spec (tree.py is not under
src/): an elided or constant target is atomic, a nested node is not. -/
def isAtomicT : PTarget → Bool
  | .node _ => false
  | _ => true

/-- Python `target in ids` for the compact-layout aliasing check: an atomic
constant is compared against the identifiers, an elided target against an
absent identifier, and a node tuple never equals an identifier. -/
def targetIn (t : PTarget) (ids : List (Option String)) : Bool :=
  match t with
  | .none => ids.contains Option.none
  | .atom s => ids.contains (some s)
  | .node _ => false

mutual
/-- Identifiers of all nodes of a (sub)tree, modelled from the spec:
`tree.nodes()` enumerates every node of the tree. -/
def nodeIds : PNode → List (Option String)
  | .mk i es => i :: edgesIds es

def edgesIds : PEdges → List (Option String)
  | .nil => []
  | .cons (.mk _ t _) r => targetIds t ++ edgesIds r

def targetIds : PTarget → List (Option String)
  | .node n => nodeIds n
  | _ => []
end

mutual
/-- `PENMANCodec._format_node`: an id-less node formats as `()`, an edge-less
node as `(id)`; otherwise the edges are formatted and joined, with the column
advanced by `len(str(id)) + 2` under automatic indentation or by `indent`
under fixed indentation. -/
def formatNode (n : PNode) (indent : Option Int) (column : Int)
    (ids : List (Option String)) : String :=
  match n with
  | .mk Option.none _ => "()"
  | .mk (some i) es =>
    if i = "" then "()"
    else
      match es with
      | .nil => "(" ++ i ++ ")"
      | .cons e rest =>
        let col2 : Int :=
          match indent with
          | Option.none => column
          | some k => if k = -1 then column + i.length + 2 else column + k
        let joiner :=
          match indent with
          | Option.none => " "
          | some _ => "\n" ++ String.mk (List.replicate col2.toNat ' ')
        "(" ++ i ++ " " ++
          String.intercalate joiner
            (formatParts (.cons e rest) indent col2 ids (!ids.isEmpty) []) ++ ")"

/-- The edge loop of `_format_node`: while `compact` holds, initial
atomic-target edges accumulate onto one part; at the first non-atomic or
aliased target the accumulated parts are joined into a single part and
formatting switches to one part per edge; if every edge was compact the
parts are joined at the end. -/
def formatParts (es : PEdges) (indent : Option Int) (column : Int)
    (ids : List (Option String)) (compact : Bool) (parts : List String) :
    List String :=
  match es with
  | .nil => if compact then [String.intercalate " " parts] else parts
  | .cons e rest =>
    if compact && (!(isAtomicT e.target) || targetIn e.target ids) then
      formatParts rest indent column ids false
        ((if parts.isEmpty then parts else [String.intercalate " " parts]) ++
          [formatEdge e indent column ids])
    else
      formatParts rest indent column ids compact
        (parts ++ [formatEdge e indent column ids])

/-- Python `role.startswith(':')`: the role text begins with a colon. -/
def startsColon (s : String) : Bool :=
  match s.toList with
  | c :: _ => c = ':'
  | [] => false

/-- The role normalization of `_format_edge`: prepend `:` unless the role is
the label role `/` or already colon-prefixed. -/
def normRole (role : String) : String :=
  if role ≠ "/" && !(startsColon role) then ":" ++ role else role

/-- `PENMANCodec._format_edge`: prepend `:` to a role that is neither the
label role `/` nor already colon-prefixed, render the role and target
epigraphs, advance the column by the rendered role length plus one under
automatic indentation, and render the target (empty when elided, recursively
when a node). -/
def formatEdge (e : PEdge) (indent : Option Int) (column : Int)
    (ids : List (Option String)) : String :=
  match e with
  | .mk role target epis =>
    let role2 := normRole role
    let rEpi := String.join ((epis.filter (fun m => m.mode = 1)).map markerStr)
    let tEpi := String.join ((epis.filter (fun m => m.mode = 2)).map markerStr)
    let col2 : Int :=
      if indent = some (-1) then column + role2.length + rEpi.length + 1 else column
    role2 ++ rEpi ++ " " ++ formatTarget target indent col2 ids ++ tEpi

/-- The target part of `_format_edge`'s output: empty when elided, the
constant's text, or the recursively formatted node. -/
def formatTarget (target : PTarget) (indent : Option Int) (col2 : Int)
    (ids : List (Option String)) : String :=
  match target with
  | .none => ""
  | .atom s => s
  | .node n => formatNode n indent col2 ids
end

/-- `PENMANCodec.format`: the metadata comment lines (one `# ::key value`
line per entry, in insertion order) followed by the formatted node, with the
identifier set precomputed only for compact layout. -/
def format (t : Tree) (indent : Option Int) (compact : Bool) : String :=
  String.intercalate "\n"
    (t.metadata.map (fun p => "# ::" ++ p.1 ++ " " ++ p.2) ++
      [formatNode t.node indent 0 (if compact then nodeIds t.node else [])])

/-! ### The triple sublanguage (`PENMANCodec.parse_triples` /
`format_triples`) -/

/-- A logical triple `(source, relation, target)`. -/
abbrev Triple := String × String × Option String

/-- Modelled from the spec: the lexer for the triple conjunction notation
(TRIPLE_RE in penman/lexer.py is not under src/): parentheses, comma and
caret punctuation, strings, and classified symbol runs. -/
def lexTri (cs : List Char) : Except Err (List Token) :=
  match cs with
  | [] => .ok []
  | c :: rest =>
    if isWS c then lexTri rest
    else if c = '"' then
      match strScan rest with
      | none => .error ⟨"Unexpected end of input", none⟩
      | some (body, ⟨rem, _⟩) =>
        (lexTri rem).map
          (fun ts => ⟨.STRING, String.mk ('"' :: (body ++ ['"']))⟩ :: ts)
    else if c = '(' then (lexTri rest).map (⟨.LPAREN, "("⟩ :: ·)
    else if c = ')' then (lexTri rest).map (⟨.RPAREN, ")"⟩ :: ·)
    else if c = ',' then (lexTri rest).map (⟨.COMMA, ","⟩ :: ·)
    else if c = '^' then (lexTri rest).map (⟨.CARET, "^"⟩ :: ·)
    else if isSymChar c then
      (lexTri (dropWhileS isSymChar rest).1).map
        (fun ts => ⟨classifyTok (c :: rest.takeWhile isSymChar),
                    String.mk (c :: rest.takeWhile isSymChar)⟩ :: ts)
    else .error ⟨"Unexpected character", some ⟨.EOF, String.mk [c]⟩⟩
termination_by cs.length
decreasing_by
  all_goals simp only [List.length_cons]
  all_goals first
    | omega
    | (exact Nat.lt_succ_of_le (dropWhileS _ _).2)

/-- `PENMANCodec.parse_triples`' loop over conjuncts:
`Role '(' Source ',' Target? ')'` repeated over `^` separators, with a
missing target tolerated before the closing parenthesis. -/
def parseTriplesToks (ts : Toks) : Except Err (List Triple) :=
  match expectS ts [.SYMBOL] with
  | .error e => .error e
  | .ok (rt, ⟨ts1, h1⟩) =>
    match expectS ts1 [.LPAREN] with
    | .error e => .error e
    | .ok (_, ⟨ts2, h2⟩) =>
      match expectS ts2 [.SYMBOL] with
      | .error e => .error e
      | .ok (st, ⟨ts3, h3⟩) =>
        match expectS ts3 [.COMMA] with
        | .error e => .error e
        | .ok (_, ⟨ts4, h4⟩) =>
          match
            (if hat : (peekT ts4).type ∈ ATOMS then
              match hts4 : ts4 with
              | a :: ts5 => (some a.value, ⟨ts5, by subst hts4; simp⟩)
              | [] => absurd hat (by subst hts4; simp [peekT, eofToken, ATOMS])
            else (Option.none, ⟨ts4, le_refl _⟩) :
              Option String × { r : Toks // r.length ≤ ts4.length }) with
          | (tgt, ⟨ts5, h5⟩) =>
            match expectS ts5 [.RPAREN] with
            | .error e => .error e
            | .ok (_, ⟨ts6, h6⟩) =>
              if (peekT ts6).type = .CARET then
                match hts6 : ts6 with
                | caret :: ts7 =>
                  match parseTriplesToks ts7 with
                  | .error e => .error e
                  | .ok triples => .ok ((st.text, rt.text, tgt) :: triples)
                | [] => .ok [(st.text, rt.text, tgt)]
              else .ok [(st.text, rt.text, tgt)]
termination_by ts.length
decreasing_by
  subst hts6
  simp only [List.length_cons] at h6 ⊢
  omega

/-- `PENMANCodec.parse_triples`. -/
def parseTriples (s : String) : Except Err (List Triple) :=
  match lexTri s.toList with
  | .error e => .error e
  | .ok ts => parseTriplesToks ts

/-- Python `str(...)` of an optional triple target: `None` when absent. -/
def targetStr : Option String → String
  | some v => v
  | Option.none => "None"

/-- `PENMANCodec.format_triples`: render each triple as
`relation(source, target)` and join on the caret delimiter, with a newline
when `indent` is true. -/
def formatTriples (triples : List Triple) (indent : Bool) : String :=
  String.intercalate (if indent then " ^\n" else " ^ ")
    (triples.map (fun tr => tr.2.1 ++ "(" ++ tr.1 ++ ", " ++ targetStr tr.2.2 ++ ")"))

/-! ### Plain-result wrappers and statement helpers -/

/-- `parseNode` without the termination bookkeeping on the rest. -/
def parseNodeW (ts : Toks) : Except Err (PNode × Toks) :=
  (parseNode ts).map (fun p => (p.1, p.2.val))

/-- `parseEdge` without the termination bookkeeping on the rest. -/
def parseEdgeW (ts : Toks) : Except Err (PEdge × Toks) :=
  (parseEdge ts).map (fun p => (p.1, p.2.val))

/-- `parseOptAlign` without the termination bookkeeping on the rest. -/
def parseOptAlignW (ts : Toks) (mode : Nat) : List Marker × Toks :=
  ((parseOptAlign ts mode).1, (parseOptAlign ts mode).2.val)

/-- No two adjacent colons occur in the character list (so the text contains
no `::`). -/
def noCC : List Char → Bool
  | ':' :: ':' :: _ => false
  | _ :: r => noCC r
  | [] => true

/-- An edge that the compact layout may keep on the node's first line: its
target is atomic and aliased to no node identifier. -/
def compactOK (e : PEdge) (ids : List (Option String)) : Bool :=
  isAtomicT e.target && !(targetIn e.target ids)

/-- The specification's reading of the auto-mode column advance for an edge:
identical to `formatEdge` except that the column for a nested target advances
by the length of the edge's stored role instead of the rendered
(colon-prefixed) role text. -/
def formatEdgeClaimed (e : PEdge) (indent : Option Int) (column : Int)
    (ids : List (Option String)) : String :=
  match e with
  | .mk role target epis =>
    let role2 := normRole role
    let rEpi := String.join ((epis.filter (fun m => m.mode = 1)).map markerStr)
    let tEpi := String.join ((epis.filter (fun m => m.mode = 2)).map markerStr)
    let col2 : Int :=
      if indent = some (-1) then column + role.length + rEpi.length + 1 else column
    role2 ++ rEpi ++ " " ++ formatTarget target indent col2 ids ++ tEpi

/-- The specification's description of the compact layout of a node's edge
list: the leading run of compact-eligible edges (atomic, un-aliased targets)
is joined into one space-separated part, and the remaining edges follow one
part each; when every edge is eligible the whole list is a single part. -/
def compactParts (l : List PEdge) (indent : Option Int) (col : Int)
    (ids : List (Option String)) : List String :=
  let k := (l.takeWhile (fun e => compactOK e ids)).length
  let rds := l.map (fun e => formatEdge e indent col ids)
  if k = l.length then [String.intercalate " " rds]
  else
    (if rds.take k = [] then [] else [String.intercalate " " (rds.take k)]) ++
      rds.drop k

/-! ## Claim theorems -/

/-- C2 counterexample: the decoder's regular expression captures the dot
inside the prefix group, so decoding the token text `~e.1,2` yields the
prefix `"e."`, not the claimed `"e"`. -/
theorem C2_counterexample :
    decodeAlignment 2 "~e.1,2" = ⟨[1, 2], some "e.", 2⟩ ∧
      (⟨[1, 2], some "e.", 2⟩ : Marker) ≠ ⟨[1, 2], some "e", 2⟩ := by
  constructor
  · decide
  · decide

/-- C2 (amended): decoding `~e.1,2` produces the marker with prefix `"e."`
(the captured prefix retains the dot) and indices `(1, 2)`; decoding `~3`
produces prefix none and indices `(3,)`; decoding the malformed `~` produces
prefix none and the empty index sequence without failing. -/
theorem C2_alignment_decoding :
    decodeAlignment 2 "~e.1,2" = ⟨[1, 2], some "e.", 2⟩ ∧
      decodeAlignment 2 "~3" = ⟨[3], none, 2⟩ ∧
      decodeAlignment 2 "~" = ⟨[], none, 2⟩ := by
  refine ⟨by decide, by decide, by decide⟩

/-- C10: a node whose id is `None` or otherwise falsy (the empty string)
formats as exactly `"()"` whatever its edges, which are silently dropped. -/
theorem C10_empty_node_format (id : Option String) (es : PEdges)
    (indent : Option Int) (column : Int) (ids : List (Option String))
    (h : id = Option.none ∨ id = some "") :
    formatNode (.mk id es) indent column ids = "()" := by
  rcases h with h | h <;> subst h <;> simp [formatNode]

/-- C10 witness: a node with no id but two edges formats as `"()"`. -/
theorem C10_empty_node_format_witness :
    formatNode (.mk Option.none
      (.cons ⟨":op1", .atom "x", []⟩ (.cons ⟨":op2", .atom "y", []⟩ .nil)))
      (some (-1)) 0 [] = "()" :=
  C10_empty_node_format Option.none _ (some (-1)) 0 [] (Or.inl rfl)

/-- When the next token is not an ALIGNMENT, no marker is consumed. -/
theorem parseOptAlign_no (ts : Toks) (mode : Nat)
    (h : (peekT ts).type ≠ .ALIGNMENT) :
    parseOptAlign ts mode = ([], ⟨ts, le_refl _⟩) := by
  cases ts with
  | nil => rfl
  | cons t r =>
    simp only [peekT] at h
    simp [parseOptAlign, h]

/-- When the next token is an ALIGNMENT, it is consumed and decoded. -/
theorem parseOptAlign_yes (t : Token) (r : Toks) (mode : Nat)
    (h : t.type = .ALIGNMENT) :
    parseOptAlign (t :: r) mode =
      ([decodeAlignment mode t.text], ⟨r, by simp⟩) := by
  simp [parseOptAlign, h]

/-! ### Metadata machinery: rpartition and dict-insert lemmas -/

/-- An option of a subtype whose value part is determined is the
corresponding `some`. -/
theorem optionSubtypeEq {α : Type} {P : α → Prop} (o : Option (Subtype P))
    (v : α) (h : P v) (heq : o.map Subtype.val = some v) : o = some ⟨v, h⟩ := by
  cases o with
  | none => simp at heq
  | some p =>
    simp at heq
    cases p
    simp at heq ⊢
    exact heq

/-- `rpartAux` pushes a non-separator head onto the accumulator. -/
theorem rpartAux_step (c c2 : Char) (rest acc : List Char)
    (h : ¬(c = ':' ∧ c2 = ':')) :
    (rpartAux (c :: c2 :: rest) acc).map Subtype.val =
      (rpartAux (c2 :: rest) (c :: acc)).map Subtype.val := by
  have hcond : ∀ (r1 : List Char), c = ':' → c2 :: rest = ':' :: r1 → False :=
    fun r1 hc hr => h ⟨hc, (List.cons.inj hr).1⟩
  rw [rpartAux.eq_2 acc c (c2 :: rest) hcond]
  cases hr : rpartAux (c2 :: rest) (c :: acc) with
  | none => simp
  | some p =>
    cases p with
    | mk v hv => simp

/-- `rpartAux` skips over a scan-free segment (no `::` inside it nor at its
boundary with what follows). -/
theorem rpartAux_skip (u : List Char) : ∀ (rest acc : List Char),
    noCC (u ++ rest.take 1) = true →
    (rpartAux (u ++ rest) acc).map Subtype.val =
      (rpartAux rest (u.reverse ++ acc)).map Subtype.val := by
  induction u with
  | nil =>
    intro rest acc h
    simp
  | cons c u2 ih =>
    intro rest acc h
    cases u2 with
    | nil =>
      cases rest with
      | nil =>
        have hcond : ∀ (r1 : List Char), c = ':' → ([] : List Char) = ':' :: r1 → False :=
          fun r1 hc hr => by simp at hr
        show (rpartAux (c :: []) acc).map Subtype.val =
          (rpartAux [] ((c :: []).reverse ++ acc)).map Subtype.val
        rw [rpartAux.eq_2 acc c [] hcond]
        simp [rpartAux]
      | cons c2 rest2 =>
        have hstep : ¬(c = ':' ∧ c2 = ':') := by
          rintro ⟨hc, hc2⟩
          subst hc
          subst hc2
          rw [show ([':'] ++ List.take 1 (':' :: rest2)) = [':', ':'] from rfl,
            noCC.eq_1] at h
          exact Bool.false_ne_true h
        have := rpartAux_step c c2 rest2 acc hstep
        simpa using this
    | cons c2 u3 =>
      have hstep : ¬(c = ':' ∧ c2 = ':') := by
        rintro ⟨hc, hc2⟩
        subst hc
        subst hc2
        rw [show ((':' :: ':' :: u3) ++ List.take 1 rest) =
          ':' :: ':' :: (u3 ++ List.take 1 rest) from rfl, noCC.eq_1] at h
        exact Bool.false_ne_true h
      have h2 : noCC (c2 :: u3 ++ rest.take 1) = true := by
        have hcond : ∀ (r1 : List Char),
            c = ':' → (c2 :: (u3 ++ rest.take 1)) = ':' :: r1 → False :=
          fun r1 hc hr => hstep ⟨hc, (List.cons.inj hr).1⟩
        have heq := noCC.eq_2 c (c2 :: (u3 ++ rest.take 1)) hcond
        simp only [List.cons_append] at h
        rw [heq] at h
        simpa using h
      have hs := rpartAux_step c c2 (u3 ++ rest) acc hstep
      calc (rpartAux (c :: c2 :: u3 ++ rest) acc).map Subtype.val
          = (rpartAux (c2 :: u3 ++ rest) (c :: acc)).map Subtype.val := hs
        _ = (rpartAux rest ((c2 :: u3).reverse ++ (c :: acc))).map Subtype.val :=
            ih rest (c :: acc) h2
        _ = (rpartAux rest ((c :: c2 :: u3).reverse ++ acc)).map Subtype.val := by
            have hl : (c :: c2 :: u3).reverse ++ acc =
                (c2 :: u3).reverse ++ (c :: acc) := by
              simp
            rw [hl]

/-- `noCC` states that no two adjacent characters are both colons. -/
theorem noCC_chain (l : List Char) :
    noCC l = true ↔ l.Chain' (fun a b => ¬(a = ':' ∧ b = ':')) := by
  induction l with
  | nil => simp [noCC]
  | cons a t ih =>
    cases t with
    | nil =>
      have h1 : noCC [a] = true := by
        rw [noCC.eq_2 a [] (fun r1 hc hr => by simp at hr)]
        rfl
      simp [h1]
    | cons b t2 =>
      by_cases hab : a = ':' ∧ b = ':'
      · obtain ⟨rfl, rfl⟩ := hab
        rw [noCC.eq_1]
        simp [List.chain'_cons]
      · have hstep : noCC (a :: b :: t2) = noCC (b :: t2) :=
          noCC.eq_2 a (b :: t2) (fun r1 hc hr => hab ⟨hc, (List.cons.inj hr).1⟩)
        rw [hstep, List.chain'_cons, ih]
        exact ⟨fun h => ⟨hab, h⟩, fun h => h.2⟩

/-- Adjacent-colon freedom is invariant under reversal. -/
theorem noCC_reverse (l : List Char) : noCC l.reverse = noCC l := by
  have h1 := noCC_chain l.reverse
  have h2 := noCC_chain l
  have h3 : l.reverse.Chain' (fun a b => ¬(a = ':' ∧ b = ':')) ↔
      l.Chain' (fun a b => ¬(a = ':' ∧ b = ':')) := by
    rw [List.chain'_reverse]
    constructor
    · exact fun h => h.imp (fun a b hab hxy => hab ⟨hxy.2, hxy.1⟩)
    · exact fun h => h.imp (fun a b hab hxy => hab ⟨hxy.2, hxy.1⟩)
  cases hb : noCC l
  · cases hb2 : noCC l.reverse
    · rfl
    · rw [hb2] at h1
      rw [hb] at h2
      exfalso
      have := h2.mpr (h3.mp (h1.mp rfl))
      simp at this
  · cases hb2 : noCC l.reverse
    · rw [hb2] at h1
      rw [hb] at h2
      exfalso
      have := h1.mpr (h3.mpr (h2.mp rfl))
      simp at this
    · rfl

/-- `rpartColons` at the value level is `rpartAux` on the reversed text. -/
theorem rpartColons_val (cs : List Char) :
    (rpartColons cs).map Subtype.val = (rpartAux cs.reverse []).map Subtype.val := by
  unfold rpartColons
  cases h : rpartAux cs.reverse [] with
  | none => simp
  | some p =>
    cases p with
    | mk v hv => simp

/-- `rpartColons` finds the rightmost `::`: on a text of the form
`pre ++ "::" ++ post` with no `::` in `post` and `post` not starting with a
colon, it splits exactly there. -/
theorem rpartColons_append_val (pre post : List Char)
    (h : noCC (':' :: post) = true) :
    (rpartColons (pre ++ ':' :: ':' :: post)).map Subtype.val =
      some (pre, post) := by
  rw [rpartColons_val]
  have hrev : (pre ++ ':' :: ':' :: post).reverse =
      post.reverse ++ (':' :: ':' :: pre.reverse) := by
    simp
  rw [hrev]
  have hnc : noCC (post.reverse ++ (':' :: ':' :: pre.reverse).take 1) = true := by
    have h2 : post.reverse ++ (':' :: ':' :: pre.reverse).take 1 =
        (':' :: post).reverse := by
      simp
    rw [h2, noCC_reverse]
    exact h
  rw [rpartAux_skip post.reverse (':' :: ':' :: pre.reverse) [] hnc]
  rw [rpartAux.eq_1]
  simp

/-- The rightmost-`::` step of the `_parse_comments` inner loop: the pair
after the last `::` is recorded first, and the scan continues on the text
before it. -/
theorem commentMeta_append (pre post : List Char)
    (md : List (String × String)) (h : noCC (':' :: post) = true) :
    commentMeta (pre ++ ':' :: ':' :: post) md =
      commentMeta pre
        (mdInsert md (String.mk (keyOf post)) (String.mk (valOf post))) := by
  have hp : pre.length + 2 + post.length = (pre ++ ':' :: ':' :: post).length := by
    simp [List.length_append]
    omega
  have hr : rpartColons (pre ++ ':' :: ':' :: post) = some ⟨(pre, post), hp⟩ :=
    optionSubtypeEq (rpartColons (pre ++ ':' :: ':' :: post)) (pre, post) hp
      (rpartColons_append_val pre post h)
  conv_lhs => rw [commentMeta]
  rw [hr]

/-- Looking up a key that was just overwritten yields the new value. -/
theorem lookup_replace (md : List (String × String)) (k v : String)
    (h : md.any (fun p => p.1 = k) = true) :
    (md.map (fun p => if p.1 = k then (k, v) else p)).lookup k = some v := by
  induction md with
  | nil => simp at h
  | cons p md2 ih =>
    by_cases hk : p.1 = k
    · rw [List.map_cons, if_pos hk]
      simp [List.lookup]
    · rw [List.map_cons, if_neg hk]
      have hbeq : (k == p.1) = false := by
        simp
        intro he
        exact hk he.symm
      simp only [List.lookup, hbeq]
      apply ih
      simp only [List.any_cons, Bool.or_eq_true, decide_eq_true_eq] at h
      rcases h with h | h
      · exact absurd h hk
      · exact h

/-- Looking up a freshly appended key yields its value. -/
theorem lookup_append_fresh (md : List (String × String)) (k v : String)
    (h : md.any (fun p => p.1 = k) = false) :
    ((md ++ [(k, v)]).lookup k) = some v := by
  induction md with
  | nil => simp [List.lookup]
  | cons p md2 ih =>
    simp only [List.any_cons, Bool.or_eq_false_iff, decide_eq_false_iff_not] at h
    have hbeq : (k == p.1) = false := by
      simp
      intro he
      exact h.1 he.symm
    simp only [List.cons_append, List.lookup, hbeq]
    exact ih (by simp [h.2])

/-- Python dict assignment: the new value is retrieved for the key. -/
theorem mdInsert_lookup (md : List (String × String)) (k v : String) :
    (mdInsert md k v).lookup k = some v := by
  unfold mdInsert
  split
  · exact lookup_replace md k v (by assumption)
  · rename_i h
    exact lookup_append_fresh md k v (by rwa [Bool.not_eq_true] at h)

/-- Python dict assignment on an existing key keeps the key sequence (the
key keeps its first insertion position). -/
theorem mdInsert_keys_of_mem (md : List (String × String)) (k v : String)
    (h : k ∈ md.map Prod.fst) :
    (mdInsert md k v).map Prod.fst = md.map Prod.fst := by
  have hc : md.any (fun p => p.1 = k) = true := by
    rw [List.any_eq_true]
    rcases List.mem_map.mp h with ⟨p, hp, he⟩
    exact ⟨p, hp, by simp [he]⟩
  unfold mdInsert
  rw [if_pos hc, List.map_map]
  apply List.map_congr_left
  intro p hp
  by_cases hk : p.1 = k
  · simp [hk]
  · simp [hk]

/-- Python dict assignment on a fresh key appends it. -/
theorem mdInsert_fresh (md : List (String × String)) (k v : String)
    (h : md.any (fun p => p.1 = k) = false) :
    mdInsert md k v = md ++ [(k, v)] := by
  simp [mdInsert, h]

/-- The index list decoded from matched indices text is never empty. -/
theorem indsOf_ne_nil (t : List Char) : indsOf t ≠ [] := by
  unfold indsOf
  intro h
  rcases List.map_eq_nil_iff.mp h with h2
  exact List.splitOnP_ne_nil _ t h2

/-- A successful alignment-pattern match always captures a nonempty index
sequence. -/
theorem alignMatch_ne_nil (cs : List Char) (p : Option String)
    (inds : List Nat) (h : alignMatch cs = some (p, inds)) : inds ≠ [] := by
  unfold alignMatch at h
  repeat' split at h
  all_goals simp_all
  all_goals (rcases h with ⟨h1, h2⟩; subst h2; exact indsOf_ne_nil _)

/-- C3 counterexample: fed an alignment token whose text `~` yields no
parseable indices, the edge parser still constructs the marker and attaches
it to the edge's epigraph data, with an empty index sequence. -/
theorem C3_counterexample :
    parseEdgeW [⟨.ROLE, ":op"⟩, ⟨.ALIGNMENT, "~"⟩, ⟨.RPAREN, ")"⟩] =
      .ok (⟨":op", .none, [⟨[], none, 1⟩]⟩, [⟨.RPAREN, ")"⟩]) ∧
      (Marker.mk [] none 1).indices = [] := by
  constructor
  · simp [parseEdgeW, parseEdge, expectS, parseOptAlign, peekT, decodeAlignment,
      alignMatch, digitsCommas, ATOMS, expectMsg, Except.map]
  · rfl

/-- C3 (amended): the parser attaches the decoded marker for every alignment
token unconditionally, and the attached marker's index sequence is non-empty
whenever the token's text contains parseable indices; a text with no
parseable indices yields an attached marker with the empty index sequence
rather than no marker. -/
theorem C3_alignment_indices :
    (∀ (ts : Toks) (text : String) (mode : Nat),
      parseOptAlignW (⟨.ALIGNMENT, text⟩ :: ts) mode =
        ([decodeAlignment mode text], ts)) ∧
    (∀ (mode : Nat) (text : String) (cs : List Char) (p : Option String)
        (inds : List Nat),
      text.toList = '~' :: cs → alignMatch cs = some (p, inds) →
        (decodeAlignment mode text).indices ≠ []) := by
  constructor
  · intro ts text mode
    simp [parseOptAlignW, parseOptAlign]
  · intro mode text cs p inds h1 h2
    have h3 : decodeAlignment mode text = ⟨inds, p, mode⟩ := by
      unfold decodeAlignment
      rw [h1]
      simp [h2]
    rw [h3]
    exact alignMatch_ne_nil cs p inds h2

/-- C3 witness: the marker decoded from `~e.1` is attached and its index
sequence `(1,)` is non-empty. -/
theorem C3_alignment_indices_witness :
    parseOptAlignW [⟨.ALIGNMENT, "~e.1"⟩] 1 = ([decodeAlignment 1 "~e.1"], []) ∧
      (decodeAlignment 1 "~e.1").indices ≠ [] :=
  ⟨C3_alignment_indices.1 [] "~e.1" 1,
   C3_alignment_indices.2 1 "~e.1" ['e', '.', '1'] (some "e.") [1]
     (by decide) (by decide)⟩

/-- Under the hypotheses of the formatter's normalization branch, the
normalized role is the colon-prefixed role. -/
theorem normRole_colonless (role : String) (h1 : role ≠ "/")
    (h2 : startsColon role = false) : normRole role = ":" ++ role := by
  simp [normRole, h1, h2]

/-- The normalized role of an already colon-prefixed role is itself. -/
theorem normRole_colon_prefixed (role : String) :
    normRole (":" ++ role) = ":" ++ role := by
  have h : startsColon (":" ++ role) = true := by
    simp [startsColon, String.toList]
  simp [normRole, h]

/-- An edge whose role is neither `/` nor colon-prefixed renders exactly as
the edge with the colon-prefixed role. -/
theorem formatEdge_prepends_colon (role : String) (target : PTarget)
    (epis : List Marker) (indent : Option Int) (column : Int)
    (ids : List (Option String)) (h1 : role ≠ "/")
    (h2 : startsColon role = false) :
    formatEdge ⟨role, target, epis⟩ indent column ids =
      formatEdge ⟨":" ++ role, target, epis⟩ indent column ids := by
  simp only [formatEdge, normRole_colonless role h1 h2, normRole_colon_prefixed]

/-- C9: an edge whose role is neither `/` nor colon-prefixed renders exactly
as the edge with the colon-prefixed role (the formatter prepends `:`), and a
tree built with a colon-less role does not format back to that role:
`(a, ARG0 -> b)` renders as `(a :ARG0 b)`, not `(a ARG0 b)`. -/
theorem C9_role_normalization :
    (∀ (role : String) (target : PTarget) (epis : List Marker)
        (indent : Option Int) (column : Int) (ids : List (Option String)),
      role ≠ "/" → startsColon role = false →
        formatEdge ⟨role, target, epis⟩ indent column ids =
          formatEdge ⟨":" ++ role, target, epis⟩ indent column ids) ∧
      format ⟨.mk (some "a") (.cons ⟨"ARG0", .atom "b", []⟩ .nil), []⟩
          (some (-1)) false = "(a :ARG0 b)" ∧
      ("(a :ARG0 b)" : String) ≠ "(a ARG0 b)" :=
  ⟨fun role target epis indent column ids h1 h2 =>
    formatEdge_prepends_colon role target epis indent column ids h1 h2,
   by decide, by decide⟩

/-- C9 witness: the colon-less role `ARG0` renders as the prefixed role
`:ARG0` does. -/
theorem C9_role_normalization_witness :
    formatEdge ⟨"ARG0", .atom "b", []⟩ (some (-1)) 0 [] =
      formatEdge ⟨":ARG0", .atom "b", []⟩ (some (-1)) 0 [] :=
  C9_role_normalization.1 "ARG0" (.atom "b") [] (some (-1)) 0 []
    (by decide) (by decide)

/-- C8: parsing the triple conjunction `instance(b, bark) ^ ARG1(b, d)`
yields the ordered pairs (source, relation, target) and formatting that
sequence in single-line mode reproduces the exact same string. -/
theorem C8_triple_round_trip :
    parseTriples "instance(b, bark) ^ ARG1(b, d)" =
      .ok [("b", "instance", some "bark"), ("b", "ARG1", some "d")] ∧
      formatTriples [("b", "instance", some "bark"), ("b", "ARG1", some "d")]
          false = "instance(b, bark) ^ ARG1(b, d)" := by
  constructor
  · have h : "instance(b, bark) ^ ARG1(b, d)".toList =
        ['i', 'n', 's', 't', 'a', 'n', 'c', 'e', '(', 'b', ',', ' ', 'b', 'a',
         'r', 'k', ')', ' ', '^', ' ', 'A', 'R', 'G', '1', '(', 'b', ',', ' ',
         'd', ')'] := rfl
    simp [parseTriples, h, lexTri, isWS, isSymChar, dropWhileS, classifyTok,
      intShape, floatShape, Except.map, parseTriplesToks, expectS, peekT,
      expectMsg, ATOMS, eofToken, Token.value, List.takeWhile, List.dropWhile]
  · decide

/-- C4: after an edge's role (no role alignment following), the target is
the atom's value when the next token is an atom (SYMBOL, STRING, INTEGER or
FLOAT), the recursively parsed node when it is an opening parenthesis, and
elided (target none, nothing consumed) when it is another role or the
closing parenthesis; for every other token type the parser fails immediately
with the syntax error naming the expected categories `ATOM, LPAREN` at that
token.  In particular `(a :ARG0 :ARG1 b)` parses to node `a` with exactly a
dangling `:ARG0` edge and an `:ARG1` edge with atomic target `b`. -/
theorem C4_edge_target_cases :
    (∀ (role a : Token) (ts : Toks), role.type = .ROLE → a.type ∈ ATOMS →
      (peekT ts).type ≠ .ALIGNMENT →
      parseEdgeW (role :: a :: ts) = .ok (⟨role.text, .atom a.value, []⟩, ts)) ∧
    (∀ (role : Token) (ts : Toks) (n : PNode) (rest : Toks),
      role.type = .ROLE → (peekT ts).type = .LPAREN →
      parseNodeW ts = .ok (n, rest) →
      parseEdgeW (role :: ts) = .ok (⟨role.text, .node n, []⟩, rest)) ∧
    (∀ (role t : Token) (ts : Toks), role.type = .ROLE →
      t.type = .ROLE ∨ t.type = .RPAREN →
      parseEdgeW (role :: t :: ts) = .ok (⟨role.text, .none, []⟩, t :: ts)) ∧
    (∀ (role t : Token) (ts : Toks), role.type = .ROLE →
      t.type ∉ ATOMS → t.type ≠ .LPAREN → t.type ≠ .ROLE → t.type ≠ .RPAREN →
      t.type ≠ .ALIGNMENT →
      parseEdgeW (role :: t :: ts) = .error ⟨"Expected: ATOM, LPAREN", some t⟩) ∧
    parse "(a :ARG0 :ARG1 b)" =
      .ok ⟨.mk (some "a") (.cons ⟨":ARG0", .none, []⟩
          (.cons ⟨":ARG1", .atom "b", []⟩ .nil)), []⟩ := by
  refine ⟨?_, ?_, ?_, ?_, ?_⟩
  · intro role a ts h1 h2 h3
    have ha : a.type ≠ .ALIGNMENT := by
      simp [ATOMS] at h2
      rcases h2 with h | h | h | h <;> simp [h]
    have hoa : parseOptAlign (a :: ts) 1 = ([], ⟨a :: ts, le_refl _⟩) :=
      parseOptAlign_no (a :: ts) 1 (by simpa [peekT] using ha)
    have hob : parseOptAlign ts 2 = ([], ⟨ts, le_refl _⟩) :=
      parseOptAlign_no ts 2 h3
    simp [parseEdgeW, parseEdge, expectS, h1, h2, hoa, hob, Except.map]
  · intro role ts n rest h1 h2 h3
    cases ts with
    | nil => simp [peekT, eofToken] at h2
    | cons t ts2 =>
      simp only [peekT] at h2
      have hoa : parseOptAlign (t :: ts2) 1 = ([], ⟨t :: ts2, le_refl _⟩) :=
        parseOptAlign_no (t :: ts2) 1 (by simp [peekT, h2])
      rcases hp : parseNode (t :: ts2) with e | ⟨n2, rest2, hr⟩
      · rw [parseNodeW, hp] at h3
        simp [Except.map] at h3
      · rw [parseNodeW, hp] at h3
        simp [Except.map] at h3
        obtain ⟨rfl, rfl⟩ := h3
        simp [parseEdgeW, parseEdge, expectS, h1, h2, hoa, hp, Except.map,
          ATOMS]
  · intro role t ts h1 h2
    have hne : t.type ∉ ATOMS := by
      rcases h2 with h | h <;> rw [h] <;> decide
    have hna : t.type ≠ .ALIGNMENT := by
      rcases h2 with h | h <;> rw [h] <;> simp
    have hnl : t.type ≠ .LPAREN := by
      rcases h2 with h | h <;> rw [h] <;> simp
    have hoa : parseOptAlign (t :: ts) 1 = ([], ⟨t :: ts, le_refl _⟩) :=
      parseOptAlign_no (t :: ts) 1 (by simp [peekT, hna])
    simp [parseEdgeW, parseEdge, expectS, h1, h2, hne, hna, hnl, hoa,
      Except.map]
  · intro role t ts h1 h2 h3 h4 h5 h6
    have hoa : parseOptAlign (t :: ts) 1 = ([], ⟨t :: ts, le_refl _⟩) :=
      parseOptAlign_no (t :: ts) 1 (by simp [peekT, h6])
    simp [parseEdgeW, parseEdge, expectS, h1, h2, h3, h4, h5, h6, hoa,
      Except.map]
  · have h : "(a :ARG0 :ARG1 b)".toList =
        ['(', 'a', ' ', ':', 'A', 'R', 'G', '0', ' ', ':', 'A', 'R', 'G', '1',
         ' ', 'b', ')'] := rfl
    simp [parse, h, lexPen, isWS, isSymChar, dropWhileS, classifyTok, intShape,
      floatShape, Except.map, parseComments, parseNode, parseEdges, parseEdge,
      parseOptAlign, expectS, peekT, expectMsg, Token.value, ATOMS, eofToken,
      List.takeWhile, List.dropWhile]

/-- C4 witness: the four target cases at concrete tokens: an atomic target, a
nested-node target, a dangling edge before `)`, and the syntax error on a
slash after a role. -/
theorem C4_edge_target_cases_witness :
    parseEdgeW [⟨.ROLE, ":op"⟩, ⟨.INTEGER, "4"⟩] =
        .ok (⟨":op", .atom "4", []⟩, []) ∧
      parseEdgeW [⟨.ROLE, ":op"⟩, ⟨.LPAREN, "("⟩, ⟨.RPAREN, ")"⟩] =
        .ok (⟨":op", .node (.mk none .nil), []⟩, []) ∧
      parseEdgeW [⟨.ROLE, ":op"⟩, ⟨.RPAREN, ")"⟩] =
        .ok (⟨":op", .none, []⟩, [⟨.RPAREN, ")"⟩]) ∧
      parseEdgeW [⟨.ROLE, ":op"⟩, ⟨.SLASH, "/"⟩] =
        .error ⟨"Expected: ATOM, LPAREN", some ⟨.SLASH, "/"⟩⟩ := by
  refine ⟨C4_edge_target_cases.1 ⟨.ROLE, ":op"⟩ ⟨.INTEGER, "4"⟩ []
      rfl (by decide) (by decide),
    C4_edge_target_cases.2.1 ⟨.ROLE, ":op"⟩ [⟨.LPAREN, "("⟩, ⟨.RPAREN, ")"⟩]
      (.mk none .nil) [] rfl (by decide) ?_,
    C4_edge_target_cases.2.2.1 ⟨.ROLE, ":op"⟩ ⟨.RPAREN, ")"⟩ [] rfl
      (Or.inr rfl),
    C4_edge_target_cases.2.2.2.1 ⟨.ROLE, ":op"⟩ ⟨.SLASH, "/"⟩ [] rfl
      (by decide) (by decide) (by decide) (by decide) (by decide)⟩
  simp [parseNodeW, parseNode, expectS, peekT, expectMsg, Except.map]

/-- Once compact accumulation has stopped, the edge loop emits one part per
edge after the accumulated parts. -/
theorem formatParts_false (l : List PEdge) (indent : Option Int) (col : Int)
    (ids : List (Option String)) : ∀ (parts : List String),
    formatParts (PEdges.ofList l) indent col ids false parts =
      parts ++ l.map (fun e => formatEdge e indent col ids) := by
  induction l with
  | nil =>
    intro parts
    simp [PEdges.ofList, formatParts]
  | cons e l2 ih =>
    intro parts
    simp only [PEdges.ofList, formatParts, Bool.false_and, Bool.if_false_left,
      Bool.and_eq_true, Bool.not_eq_true]
    rw [if_neg (by simp)]
    rw [ih (parts ++ [formatEdge e indent col ids])]
    simp

/-- The compact edge loop groups the leading run of compact-eligible edges
into a single space-joined part and emits the remaining edges one part
each; when every edge is eligible the whole list is one part. -/
theorem formatParts_true (l : List PEdge) (indent : Option Int) (col : Int)
    (ids : List (Option String)) : ∀ (parts : List String),
    formatParts (PEdges.ofList l) indent col ids true parts =
      (if (l.takeWhile (fun e => compactOK e ids)).length = l.length then
        [String.intercalate " "
          (parts ++ l.map (fun e => formatEdge e indent col ids))]
      else
        (if parts ++ (l.map (fun e => formatEdge e indent col ids)).take
              (l.takeWhile (fun e => compactOK e ids)).length = [] then []
         else [String.intercalate " "
           (parts ++ (l.map (fun e => formatEdge e indent col ids)).take
              (l.takeWhile (fun e => compactOK e ids)).length)]) ++
        (l.map (fun e => formatEdge e indent col ids)).drop
          (l.takeWhile (fun e => compactOK e ids)).length) := by
  induction l with
  | nil =>
    intro parts
    simp [PEdges.ofList, formatParts]
  | cons e l2 ih =>
    intro parts
    have hbad : (!(isAtomicT e.target) || targetIn e.target ids) =
        !(compactOK e ids) := by
      simp [compactOK, Bool.not_and, Bool.not_not]
    by_cases hc : compactOK e ids = true
    · simp only [PEdges.ofList, formatParts, hbad, hc, Bool.not_true,
        Bool.and_false, Bool.true_and]
      rw [if_neg (by simp)]
      rw [ih (parts ++ [formatEdge e indent col ids])]
      rw [@List.takeWhile_cons_of_pos PEdge (fun e => compactOK e ids) e l2 hc]
      simp only [List.length_cons, List.map_cons, Nat.succ_inj,
        List.take_succ_cons, List.drop_succ_cons]
      by_cases hk : (l2.takeWhile (fun e => compactOK e ids)).length = l2.length
      · rw [if_pos hk, if_pos hk]
        simp
      · rw [if_neg hk, if_neg hk]
        have h1 : parts ++ [formatEdge e indent col ids] ++
            (l2.map (fun e => formatEdge e indent col ids)).take
              (l2.takeWhile (fun e => compactOK e ids)).length =
            parts ++ formatEdge e indent col ids ::
            (l2.map (fun e => formatEdge e indent col ids)).take
              (l2.takeWhile (fun e => compactOK e ids)).length := by
          simp
        rw [h1]
    · have hc2 : compactOK e ids = false := by
        revert hc
        cases compactOK e ids <;> simp
      simp only [PEdges.ofList, formatParts, hbad, hc2, Bool.not_false,
        Bool.and_true, Bool.true_and]
      simp only [if_true]
      rw [formatParts_false l2 indent col ids]
      rw [@List.takeWhile_cons_of_neg PEdge (fun e => compactOK e ids) e l2
        (by simp [hc2])]
      simp only [List.length_nil, List.take_zero, List.append_nil,
        List.map_cons, List.drop_zero]
      by_cases hp : parts = []
      · subst hp
        simp [List.isEmpty]
      · have hpe : parts.isEmpty = false := by
          cases parts
          · exact absurd rfl hp
          · rfl
        simp [hpe, hp]

/-- C6: with compact layout active the edge loop realizes exactly the
specification's grouping: the leading run of edges with atomic, un-aliased
targets forms one space-joined part and the remaining edges one part each;
the node assembly joins these parts with the joiner line; and the concrete
node with two atomic-constant edges and one nested-node edge puts the first
two edges on one line and breaks before the third. -/
theorem C6_compact_layout :
    (∀ (l : List PEdge) (indent : Option Int) (col : Int)
        (ids : List (Option String)),
      formatParts (PEdges.ofList l) indent col ids true [] =
        compactParts l indent col ids) ∧
    (∀ (i : String) (e : PEdge) (l : List PEdge) (indent : Option Int)
        (col : Int) (ids : List (Option String)), i ≠ "" → ids ≠ [] →
      formatNode (.mk (some i) (PEdges.ofList (e :: l))) indent col ids =
        "(" ++ i ++ " " ++
          String.intercalate
            (match indent with
              | Option.none => " "
              | some _ => "\n" ++ String.mk (List.replicate
                  (match indent with
                    | Option.none => col
                    | some k => if k = -1 then col + i.length + 2
                                else col + k).toNat ' '))
            (formatParts (PEdges.ofList (e :: l)) indent
              (match indent with
                | Option.none => col
                | some k => if k = -1 then col + i.length + 2 else col + k)
              ids true []) ++ ")") ∧
    format ⟨.mk (some "a") (PEdges.ofList
        [⟨":op1", .atom "1", []⟩, ⟨":op2", .atom "2", []⟩,
         ⟨":ARG0", .node (.mk (some "b") .nil), []⟩]), []⟩
      (some (-1)) true = "(a :op1 1 :op2 2\n   :ARG0 (b))" := by
  refine ⟨?_, ?_, by decide⟩
  · intro l indent col ids
    have h := formatParts_true l indent col ids []
    simpa [compactParts] using h
  · intro i e l indent col ids hi hids
    have hie : ids.isEmpty = false := by
      cases ids with
      | nil => exact absurd rfl hids
      | cons p r => rfl
    simp only [PEdges.ofList, formatNode, if_neg hi, hie, Bool.not_false]

/-- C6 witness: the grouping at the concrete edge list, and the node
assembly at a concrete node. -/
theorem C6_compact_layout_witness :
    formatParts (PEdges.ofList
        [⟨":op1", .atom "1", []⟩, ⟨":ARG0", .node (.mk (some "b") .nil), []⟩])
        (some (-1)) 3 [some "a", some "b"] true [] =
      compactParts
        [⟨":op1", .atom "1", []⟩, ⟨":ARG0", .node (.mk (some "b") .nil), []⟩]
        (some (-1)) 3 [some "a", some "b"] ∧
    formatNode (.mk (some "a") (PEdges.ofList [⟨":op1", .atom "1", []⟩]))
        (some (-1)) 0 [some "a"] =
      "(" ++ "a" ++ " " ++
        String.intercalate ("\n" ++ String.mk (List.replicate 3 ' '))
          (formatParts (PEdges.ofList [⟨":op1", .atom "1", []⟩]) (some (-1)) 3
            [some "a"] true []) ++ ")" := by
  constructor
  · exact C6_compact_layout.1 _ (some (-1)) 3 [some "a", some "b"]
  · have h := C6_compact_layout.2.1 "a" ⟨":op1", .atom "1", []⟩ []
      (some (-1)) 0 [some "a"] (by decide) (by decide)
    simpa using h

/-- C5 counterexample: a single comment line packed with two pairs, `::a 1`
then `::b 2`, yields the keys in reverse document order (`b` before `a`),
because the inner loop splits on the rightmost `::` first. -/
theorem C5_counterexample :
    (parse "# ::a 1 ::b 2\n(x)").map (fun t => t.metadata.map Prod.fst) =
      .ok ["b", "a"] ∧ (["b", "a"] : List String) ≠ ["a", "b"] := by
  constructor
  · have h : "# ::a 1 ::b 2\n(x)".toList =
        ['#', ' ', ':', ':', 'a', ' ', '1', ' ', ':', ':', 'b', ' ', '2', '\n',
         '(', 'x', ')'] := rfl
    simp [parse, h, lexPen, isWS, isSymChar, dropWhileS, classifyTok, intShape,
      floatShape, Except.map, parseComments, commentMeta, rpartColons, rpartAux,
      keyOf, valOf, mdInsert, parseNode, parseEdges, expectS, peekT, expectMsg,
      Token.value, ATOMS, eofToken, List.takeWhile, List.dropWhile]
  · decide

/-- C5 (amended): keys of separate comment lines are recorded in document
order with a later duplicate overwriting the value while the key keeps its
first insertion position (the claim's three-comment example yields
`id = 3, date = 2020` with `id` first); dict assignment retrieves the new
value, keeps the key sequence for an existing key, and appends a fresh key;
but within a single packed comment line the pairs are recorded
rightmost-first (reverse document order). -/
theorem C5_metadata_order :
    ((parse "# ::id 1\n# ::date 2020\n# ::id 3\n(x)").map Tree.metadata =
      .ok [("id", "3"), ("date", "2020")]) ∧
    (∀ (md : List (String × String)) (k v : String),
      (k ∈ md.map Prod.fst →
        (mdInsert md k v).map Prod.fst = md.map Prod.fst) ∧
      (mdInsert md k v).lookup k = some v ∧
      (md.any (fun p => p.1 = k) = false → mdInsert md k v = md ++ [(k, v)])) ∧
    (∀ (pre post : List Char) (md : List (String × String)),
      noCC (':' :: post) = true →
      commentMeta (pre ++ ':' :: ':' :: post) md =
        commentMeta pre
          (mdInsert md (String.mk (keyOf post)) (String.mk (valOf post)))) := by
  refine ⟨?_, ?_, ?_⟩
  · have h : "# ::id 1\n# ::date 2020\n# ::id 3\n(x)".toList =
        ['#', ' ', ':', ':', 'i', 'd', ' ', '1', '\n',
         '#', ' ', ':', ':', 'd', 'a', 't', 'e', ' ', '2', '0', '2', '0', '\n',
         '#', ' ', ':', ':', 'i', 'd', ' ', '3', '\n', '(', 'x', ')'] := rfl
    simp [parse, h, lexPen, isWS, isSymChar, dropWhileS, classifyTok, intShape,
      floatShape, Except.map, parseComments, commentMeta, rpartColons, rpartAux,
      keyOf, valOf, mdInsert, parseNode, parseEdges, expectS, peekT, expectMsg,
      Token.value, ATOMS, eofToken, List.takeWhile, List.dropWhile]
  · intro md k v
    exact ⟨mdInsert_keys_of_mem md k v, mdInsert_lookup md k v,
      mdInsert_fresh md k v⟩
  · intro pre post md h
    exact commentMeta_append pre post md h

/-- C5 witness: the amended statement applied at the claim's inputs: the
duplicate key `id` keeps position and takes value `3`, a fresh key appends,
and the rightmost-first step on the packed text `# ::a 1` with `::b 2`
records `b`'s pair before scanning the rest. -/
theorem C5_metadata_order_witness :
    (mdInsert [("id", "1"), ("date", "2020")] "id" "3").map Prod.fst =
        [("id", "1"), ("date", "2020")].map Prod.fst ∧
      (mdInsert [("id", "1"), ("date", "2020")] "id" "3").lookup "id" =
        some "3" ∧
      mdInsert [("id", "1")] "date" "2020" = [("id", "1"), ("date", "2020")] ∧
      commentMeta ("# ::a 1 ".toList ++ ':' :: ':' :: "b 2".toList) [] =
        commentMeta "# ::a 1 ".toList
          (mdInsert [] (String.mk (keyOf "b 2".toList))
            (String.mk (valOf "b 2".toList))) :=
  ⟨(C5_metadata_order.2.1 [("id", "1"), ("date", "2020")] "id" "3").1
      (by decide),
   (C5_metadata_order.2.1 [("id", "1"), ("date", "2020")] "id" "3").2.1,
   (C5_metadata_order.2.1 [("id", "1")] "date" "2020").2.2 (by decide),
   C5_metadata_order.2.2 "# ::a 1 ".toList "b 2".toList [] (by decide)⟩

/-- C7 counterexample: for an edge stored with the colon-less role `ARG0`
and a nested node target, the code advances the column by the rendered role
`:ARG0` (one more than the stored role's length), so the nested node's edges
align at column 13, not at column 11 as the claim's reading
(`formatEdgeClaimed`) predicts. -/
theorem C7_counterexample :
    formatEdge ⟨"ARG0", .node (.mk (some "b") (PEdges.ofList
        [⟨":x", .atom "1", []⟩, ⟨":y", .atom "2", []⟩])), []⟩
        (some (-1)) 3 [] =
      ":ARG0 (b :x 1\n            :y 2)" ∧
    formatEdgeClaimed ⟨"ARG0", .node (.mk (some "b") (PEdges.ofList
        [⟨":x", .atom "1", []⟩, ⟨":y", .atom "2", []⟩])), []⟩
        (some (-1)) 3 [] =
      ":ARG0 (b :x 1\n           :y 2)" ∧
    (":ARG0 (b :x 1\n            :y 2)" : String) ≠
      ":ARG0 (b :x 1\n           :y 2)" := by
  refine ⟨by decide, by decide, by decide⟩

/-- C7 (amended): under automatic indentation a node's edges are aligned at
the parent column plus `len(str(id)) + 2`, and an edge with a nested node
target passes into the recursive call the edge's column advanced by the
rendered (colon-prefixed) role length plus the role-epigraph length plus
one. -/
theorem C7_auto_columns :
    (∀ (i : String) (e : PEdge) (l : List PEdge) (col : Int)
        (ids : List (Option String)), i ≠ "" →
      formatNode (.mk (some i) (PEdges.ofList (e :: l))) (some (-1)) col ids =
        "(" ++ i ++ " " ++
          String.intercalate
            ("\n" ++ String.mk
              (List.replicate (col + (i.length : Int) + 2).toNat ' '))
            (formatParts (PEdges.ofList (e :: l)) (some (-1))
              (col + (i.length : Int) + 2) ids (!ids.isEmpty) []) ++ ")") ∧
    (∀ (role : String) (n : PNode) (epis : List Marker) (col : Int)
        (ids : List (Option String)),
      formatEdge ⟨role, .node n, epis⟩ (some (-1)) col ids =
        normRole role ++
          String.join ((epis.filter (fun m => m.mode = 1)).map markerStr) ++
          " " ++
          formatNode n (some (-1))
            (col + ((normRole role).length : Int) +
              ((String.join ((epis.filter (fun m => m.mode = 1)).map
                markerStr)).length : Int) + 1) ids ++
          String.join ((epis.filter (fun m => m.mode = 2)).map markerStr)) := by
  constructor
  · intro i e l col ids hi
    simp only [PEdges.ofList, formatNode, if_neg hi, if_true]
  · intro role n epis col ids
    simp only [formatEdge, formatTarget]
    simp

/-- C7 witness: the node alignment column at a concrete node. -/
theorem C7_auto_columns_witness :
    formatNode (.mk (some "a") (PEdges.ofList [⟨":op1", .atom "1", []⟩]))
        (some (-1)) 0 [] =
      "(" ++ "a" ++ " " ++
        String.intercalate
          ("\n" ++ String.mk
            (List.replicate ((0 : Int) + ((1 : Nat) : Int) + 2).toNat ' '))
          (formatParts (PEdges.ofList [⟨":op1", .atom "1", []⟩]) (some (-1))
            ((0 : Int) + ((1 : Nat) : Int) + 2) []
            (!([] : List (Option String)).isEmpty) []) ++ ")" := by
  have h := C7_auto_columns.1 "a" ⟨":op1", .atom "1", []⟩ [] 0 [] (by decide)
  simpa using h

end Penman
